import Mathlib

/-!
Verification development for the PostHog-handbook EPUB builder
(`build_epub.py`).  The Python source is shallowly embedded: pure text
transformations become Lean functions on `String` / `List Char`, the
filesystem is an explicit parameter (`String → Bool` existence tests,
`List String` directory listings, `String → String` file contents), and
the YAML loader and markdown renderer — external collaborators — are
oracle parameters.  Machine-level regular expressions from `clean_mdx`
are embedded through a small backtracking matcher (`matchSeq`) whose
constructs (character-class quantifiers, one tag-name group, a
backreference, multiline anchors) are exactly the ones the source's
patterns use, with Python's greedy/lazy and leftmost-match semantics.
-/

namespace Handbook

/-! ## Basic string utilities (Python `str` operations used by the source) -/

/-- Lexicographic `≤` on character lists by code point: the comparison
Python uses for `str` ordering (`sorted`, `<`). -/
def lexLe : List Char → List Char → Bool
  | [], _ => true
  | _ :: _, [] => false
  | a :: as, b :: bs => if a < b then true else if a = b then lexLe as bs else false

/-- Python `s.replace(old, new)`: replace every non-overlapping occurrence,
scanning left to right.  Fuel-structural so that it evaluates; fuel is the
list length, and each step consumes at least one character. -/
def pyReplaceAux (old new : List Char) : Nat → List Char → List Char
  | _, [] => []
  | 0, l => l
  | fuel+1, c :: rest =>
      if old ≠ [] ∧ old.isPrefixOf (c :: rest) then
        new ++ pyReplaceAux old new fuel (List.drop old.length (c :: rest))
      else c :: pyReplaceAux old new fuel rest

/-- Python `s.replace(old, new)` on `String`. -/
def pyReplace (s old new : String) : String :=
  String.mk (pyReplaceAux old.data new.data s.data.length s.data)

/-- First occurrence of `sep` in `l`: returns the part before and the part
after the separator, or `none` when `sep` does not occur. -/
def splitFirst (sep : List Char) : List Char → Option (List Char × List Char)
  | [] => none
  | c :: rest =>
      if sep ≠ [] ∧ sep.isPrefixOf (c :: rest) then
        some ([], List.drop sep.length (c :: rest))
      else (splitFirst sep rest).map (fun pq => (c :: pq.1, pq.2))

/-- Python `s.split(sep, maxsplit)`: cut at the first `maxsplit`
occurrences of `sep`, keeping the remainder whole. -/
def pySplitAux (sep : List Char) : Nat → List Char → List (List Char)
  | 0, l => [l]
  | k+1, l =>
      match splitFirst sep l with
      | none => [l]
      | some (pre, post) => pre :: pySplitAux sep k post

/-- Python `s.split(sep, maxsplit)` on `String`. -/
def pySplit (s sep : String) (maxsplit : Nat) : List String :=
  (pySplitAux sep.data maxsplit s.data).map String.mk

/-- Python `s.startswith(pre)`. -/
def pyStartsWith (s pre : String) : Bool :=
  pre.data.isPrefixOf s.data

/-- Python `s.endswith(suf)`. -/
def pyEndsWith (s suf : String) : Bool :=
  suf.data.isSuffixOf s.data

/-- Python `needle in s` substring test. -/
def containsSubAux (needle : List Char) : List Char → Bool
  | [] => needle = []
  | c :: rest => needle.isPrefixOf (c :: rest) || containsSubAux needle rest

/-- Python `needle in s` on `String`. -/
def containsSub (needle s : String) : Bool :=
  containsSubAux needle.data s.data

/-! ## Decimal formatting (Python `f"{n:02d}"`) -/

/-- One decimal digit as a character. -/
def digitChar : Nat → Char
  | 0 => '0' | 1 => '1' | 2 => '2' | 3 => '3' | 4 => '4'
  | 5 => '5' | 6 => '6' | 7 => '7' | 8 => '8' | _ => '9'

/-- Decimal digits of `n`, most significant first; fuel-structural
(`fuel > n` suffices).  Embeds Python's decimal rendering of a
non-negative integer. -/
def decDigitsAux : Nat → Nat → List Char
  | 0, _ => []
  | f+1, n => if n < 10 then [digitChar n] else decDigitsAux f (n / 10) ++ [digitChar (n % 10)]

/-- Decimal digits of `n`, most significant first. -/
def decDigits (n : Nat) : List Char := decDigitsAux (n + 1) n

/-- Python `f"{n:02d}"`: decimal, left-padded with `0` to width 2. -/
def pad2 (n : Nat) : List Char :=
  if n < 10 then '0' :: decDigits n else decDigits n

/-! ## A small backtracking regex engine

Each of the nine `re.sub` patterns in `clean_mdx` is a sequence of the
items below.  Quantifiers in the source's patterns apply only to single
character classes, except the tag-name group `([A-Z][A-Za-z]*)`, which
gets its own item.  Matching follows Python `re` semantics: a greedy
quantifier tries the longest repetition first, a lazy one the shortest,
alternatives are explored depth-first, and `re.sub` rewrites the
leftmost match and continues scanning after it. -/

inductive RItem where
  /-- a literal character -/
  | lit : Char → RItem
  /-- a single character of a class, e.g. `[A-Z]` -/
  | cls : (Char → Bool) → RItem
  /-- `c*` / `c*?` over a class; the `Bool` is true when greedy -/
  | star : (Char → Bool) → Bool → RItem
  /-- `c+` / `c+?` over a class; the `Bool` is true when greedy -/
  | plus : (Char → Bool) → Bool → RItem
  /-- `c{n,}` (greedy) over a class -/
  | repMin : (Char → Bool) → Nat → RItem
  /-- `c?` (greedy) over a class -/
  | opt : (Char → Bool) → RItem
  /-- capturing group `([A-Z][A-Za-z]*)` (greedy, with backtracking) -/
  | gtag : Nat → RItem
  /-- capturing group over `c*` / `c*?` -/
  | gstar : Nat → (Char → Bool) → Bool → RItem
  /-- capturing group over `c+` / `c+?` -/
  | gplus : Nat → (Char → Bool) → Bool → RItem
  /-- backreference `\k` -/
  | backref : Nat → RItem
  /-- `^` with `re.MULTILINE` -/
  | bol : RItem
  /-- `$` with `re.MULTILINE` -/
  | eol : RItem

/-- Captured groups: latest capture of each index first. -/
abbrev Caps := List (Nat × List Char)

/-- Length of the maximal run of characters satisfying `f`. -/
def runLen (f : Char → Bool) : List Char → Nat
  | [] => 0
  | c :: rest => if f c then runLen f rest + 1 else 0

/-- `[hi, hi-1, …, lo]`, empty when `hi < lo`. -/
def candsDown (lo : Nat) : Nat → List Nat
  | 0 => if lo = 0 then [0] else []
  | h+1 => if h + 1 < lo then [] else (h+1) :: candsDown lo h

/-- Repetition counts to try for a quantifier, in the order a
backtracking engine tries them: longest first when greedy, shortest
first when lazy. -/
def cands (greedy : Bool) (lo hi : Nat) : List Nat :=
  if greedy then candsDown lo hi else (candsDown lo hi).reverse

/-- First successful result over a list of repetition counts. -/
def firstSome (k : Nat → Option α) : List Nat → Option α
  | [] => none
  | n :: ns => match k n with
      | some r => some r
      | none => firstSome k ns

/-- Match a pattern (list of items) against `s` starting at position `i`.
Returns the end position and captures of the first match found in
backtracking order.  Fuel-structural; `pat.length + 1` fuel suffices
because each item consumes one level. -/
def matchSeq : Nat → List Char → List RItem → Nat → Caps → Option (Nat × Caps)
  | 0, _, _, _, _ => none
  | _+1, _, [], i, caps => some (i, caps)
  | fuel+1, s, .lit c :: rest, i, caps =>
      match s[i]? with
      | some d => if d = c then matchSeq fuel s rest (i+1) caps else none
      | none => none
  | fuel+1, s, .cls f :: rest, i, caps =>
      match s[i]? with
      | some d => if f d then matchSeq fuel s rest (i+1) caps else none
      | none => none
  | fuel+1, s, .star f g :: rest, i, caps =>
      firstSome (fun n => matchSeq fuel s rest (i+n) caps) (cands g 0 (runLen f (s.drop i)))
  | fuel+1, s, .plus f g :: rest, i, caps =>
      let m := runLen f (s.drop i)
      if m = 0 then none
      else firstSome (fun n => matchSeq fuel s rest (i+n) caps) (cands g 1 m)
  | fuel+1, s, .repMin f k :: rest, i, caps =>
      let m := runLen f (s.drop i)
      if m < k then none
      else firstSome (fun n => matchSeq fuel s rest (i+n) caps) (cands true k m)
  | fuel+1, s, .opt f :: rest, i, caps =>
      let m := runLen f (s.drop i)
      firstSome (fun n => matchSeq fuel s rest (i+n) caps) (cands true 0 (min m 1))
  | fuel+1, s, .gtag idx :: rest, i, caps =>
      match s[i]? with
      | some d =>
          if d.isUpper then
            firstSome
              (fun n => matchSeq fuel s rest (i+n) (((idx, (s.drop i).take n)) :: caps))
              (cands true 1 (1 + runLen Char.isAlpha (s.drop (i+1))))
          else none
      | none => none
  | fuel+1, s, .gstar idx f g :: rest, i, caps =>
      firstSome
        (fun n => matchSeq fuel s rest (i+n) (((idx, (s.drop i).take n)) :: caps))
        (cands g 0 (runLen f (s.drop i)))
  | fuel+1, s, .gplus idx f g :: rest, i, caps =>
      let m := runLen f (s.drop i)
      if m = 0 then none
      else firstSome
        (fun n => matchSeq fuel s rest (i+n) (((idx, (s.drop i).take n)) :: caps))
        (cands g 1 m)
  | fuel+1, s, .backref idx :: rest, i, caps =>
      let t := (caps.lookup idx).getD []
      if (s.drop i).take t.length = t then matchSeq fuel s rest (i + t.length) caps else none
  | fuel+1, s, .bol :: rest, i, caps =>
      if i = 0 then matchSeq fuel s rest i caps
      else match s[i-1]? with
        | some c => if c = '\n' then matchSeq fuel s rest i caps else none
        | none => none
  | fuel+1, s, .eol :: rest, i, caps =>
      if i = s.length then matchSeq fuel s rest i caps
      else match s[i]? with
        | some c => if c = '\n' then matchSeq fuel s rest i caps else none
        | none => none

/-- Leftmost match of `pat` in `s` at a position `≥ i`: start, end and
captures.  Fuel-structural; `s.length + 1 - i` fuel suffices. -/
def findFrom : Nat → List Char → List RItem → Nat → Option (Nat × Nat × Caps)
  | 0, _, _, _ => none
  | fuel+1, s, pat, i =>
      match matchSeq (pat.length + 1) s pat i [] with
      | some (e, caps) => some (i, e, caps)
      | none => if i < s.length then findFrom fuel s pat (i+1) else none

/-- `re.sub` scanning loop: rewrite the leftmost match, continue after it
(an empty match emits one character and advances, as in Python). -/
def reSubAux : Nat → List Char → List RItem → (Caps → List Char) → Nat → List Char
  | 0, s, _, _, pos => s.drop pos
  | fuel+1, s, pat, repl, pos =>
      match findFrom (s.length + 1) s pat pos with
      | none => s.drop pos
      | some (b, e, caps) =>
          (s.drop pos).take (b - pos) ++ repl caps ++
          (if b < e then reSubAux fuel s pat repl e
           else match s[e]? with
             | some c => c :: reSubAux fuel s pat repl (e+1)
             | none => [])

/-- `re.sub(pat, repl, s)` on character lists. -/
def reSub (pat : List RItem) (repl : Caps → List Char) (s : List Char) : List Char :=
  reSubAux (s.length + 1) s pat repl 0

/-- `re.sub(pat, repl, s)` on `String`. -/
def reSubStr (pat : List RItem) (repl : Caps → List Char) (s : String) : String :=
  String.mk (reSub pat repl s.data)

/-! ## The `clean_mdx` substitution rules

One definition per `re.sub` call in `clean_mdx`, in source order.  `\s`
is modelled as ASCII whitespace (the handbook corpus is ASCII); `.`
without `re.DOTALL` is any character except `'\n'`. -/

/-- Python `\s` (ASCII range). -/
def pySpace (c : Char) : Bool :=
  c = ' ' || c = '\t' || c = '\n' || c = '\r' || c = '\x0b' || c = '\x0c'

/-- `.` without `re.DOTALL`. -/
def notNl (c : Char) : Bool := !(c = '\n')

/-- `\n` as a character class. -/
def isNl (c : Char) : Bool := c = '\n'

/-- `[^>]`. -/
def notGt (c : Char) : Bool := !(c = '>')

/-- Literal characters of a string as pattern items. -/
def lits (s : String) : List RItem := s.data.map .lit

/-- `r'^import\s+.*$'` with `re.MULTILINE`. -/
def patImport : List RItem :=
  [.bol] ++ lits "import" ++ [.plus pySpace true, .star notNl true, .eol]

/-- `r'^export\s+.*$'` with `re.MULTILINE`. -/
def patExport : List RItem :=
  [.bol] ++ lits "export" ++ [.plus pySpace true, .star notNl true, .eol]

/-- `r'<[A-Z][A-Za-z]*\s+[^>]*/>'`. -/
def patSelfClosingAttr : List RItem :=
  [.lit '<', .cls Char.isUpper, .star Char.isAlpha true, .plus pySpace true,
   .star notGt true, .lit '/', .lit '>']

/-- `r'<([A-Z][A-Za-z]*)[^>]*>(.*?)</\1>'` with `re.DOTALL`. -/
def patPaired : List RItem :=
  [.lit '<', .gtag 1, .star notGt true, .lit '>', .gstar 2 (fun _ => true) false] ++
  lits "</" ++ [.backref 1, .lit '>']

/-- `r'<[A-Z][A-Za-z]*\s*/>'`. -/
def patSelfClosingSimple : List RItem :=
  [.lit '<', .cls Char.isUpper, .star Char.isAlpha true, .star pySpace true,
   .lit '/', .lit '>']

/-- `r'</?[A-Z][A-Za-z]*[^>]*>'`. -/
def patRemainingTag : List RItem :=
  [.lit '<', .opt (fun c => c = '/'), .cls Char.isUpper, .star Char.isAlpha true,
   .star notGt true, .lit '>']

/-- `r'\[([^\]]+)\]\(/handbook/([^)]+)\)'`. -/
def patHandbookLink : List RItem :=
  [.lit '[', .gplus 1 (fun c => !(c = ']')) true, .lit ']', .lit '('] ++
  lits "/handbook/" ++ [.gplus 2 (fun c => !(c = ')')) true, .lit ')']

/-- `r'\[([^\]]+)\]\(/([^)]+)\)'`. -/
def patInternalLink : List RItem :=
  [.lit '[', .gplus 1 (fun c => !(c = ']')) true, .lit ']', .lit '(', .lit '/',
   .gplus 2 (fun c => !(c = ')')) true, .lit ')']

/-- `r'\n{4,}'`. -/
def patBlank : List RItem := [.repMin isNl 4]

/-- Replacement `''`. -/
def replEmpty : Caps → List Char := fun _ => []

/-- Replacement `r'\k'`: the text of capture `k`. -/
def replCap (k : Nat) : Caps → List Char := fun caps => (caps.lookup k).getD []

/-- Replacement `'\n\n\n'`. -/
def replNl3 : Caps → List Char := fun _ => ['\n', '\n', '\n']

/-- `re.sub(r'^import\s+.*$', '', content, flags=re.MULTILINE)`. -/
def removeImports (s : String) : String := reSubStr patImport replEmpty s

/-- `re.sub(r'<[A-Z][A-Za-z]*\s+[^>]*/>', '', content)`. -/
def removeSelfClosingAttr (s : String) : String := reSubStr patSelfClosingAttr replEmpty s

/-- `re.sub(r'<([A-Z][A-Za-z]*)[^>]*>(.*?)</\1>', r'\2', content, flags=re.DOTALL)`. -/
def removePairedTags (s : String) : String := reSubStr patPaired (replCap 2) s

/-- `re.sub(r'<[A-Z][A-Za-z]*\s*/>', '', content)`. -/
def removeSelfClosingSimple (s : String) : String := reSubStr patSelfClosingSimple replEmpty s

/-- `re.sub(r'</?[A-Z][A-Za-z]*[^>]*>', '', content)`. -/
def removeRemainingTags (s : String) : String := reSubStr patRemainingTag replEmpty s

/-- `re.sub(r'^export\s+.*$', '', content, flags=re.MULTILINE)`. -/
def removeExports (s : String) : String := reSubStr patExport replEmpty s

/-- `re.sub(r'\[([^\]]+)\]\(/handbook/([^)]+)\)', r'\1', content)`. -/
def rewriteHandbookLinks (s : String) : String := reSubStr patHandbookLink (replCap 1) s

/-- `re.sub(r'\[([^\]]+)\]\(/([^)]+)\)', r'\1', content)`. -/
def rewriteInternalLinks (s : String) : String := reSubStr patInternalLink (replCap 1) s

/-- `re.sub(r'\n{4,}', '\n\n\n', content)`. -/
def collapseBlankLines (s : String) : String := reSubStr patBlank replNl3 s

/-- `clean_mdx`: the nine substitutions in source order. -/
def clean_mdx (content : String) : String :=
  collapseBlankLines
    (rewriteInternalLinks
      (rewriteHandbookLinks
        (removeExports
          (removeRemainingTags
            (removeSelfClosingSimple
              (removePairedTags
                (removeSelfClosingAttr
                  (removeImports content))))))))

/-! ## `parse_frontmatter`

YAML parsing (`yaml.safe_load`) is an external collaborator, passed as
an oracle `String → Option FrontmatterRecord`: `none` models a raised
`yaml.YAMLError`, `some m` a successful parse (the source's
`yaml.safe_load(...) or {}` None-coalescing is part of the oracle, which
returns `some []` for an empty document).  A record is a key-value list
looked up with `List.lookup`, matching the source's `meta.get`. -/

/-- A parsed frontmatter record (`dict` of scalar values in the source). -/
abbrev FrontmatterRecord := List (String × String)

/-- `parse_frontmatter(content)`: split off a leading `---`-delimited
YAML block; on any failure return an empty record and the whole input as
body.  The function is total: no exception escapes. -/
def parse_frontmatter (yamlLoad : String → Option FrontmatterRecord)
    (content : String) : FrontmatterRecord × String :=
  if pyStartsWith content "---" then
    match pySplit content "---" 2 with
    | _ :: p1 :: p2 :: _ =>
        match yamlLoad p1 with
        | some meta => (meta, p2)
        | none => ([], content)
    | _ => ([], content)
  else ([], content)

/-! ## `create_chapter` -/

/-- The fields of an `epub.EpubHtml` chapter that the source sets. -/
structure Chapter where
  title : String
  file_name : String
  content : String
deriving DecidableEq

/-- `create_chapter(file_path, title, file_id)`: the markdown renderer
(`md_to_html`) is an oracle, and the file's text is passed directly in
place of `file_path.read_text()`. -/
def create_chapter (yamlLoad : String → Option FrontmatterRecord)
    (render : String → String) (raw : String) (title : String) (file_id : String) :
    Chapter :=
  let mb := parse_frontmatter yamlLoad raw
  let title := (mb.1.lookup "title").getD title
  let cleaned := clean_mdx mb.2
  let html_body := render cleaned
  { title := title
    file_name := file_id ++ ".xhtml"
    content := "<h1>" ++ title ++ "</h1>\n" ++ html_body }

/-! ## `resolve_path`

The filesystem is an oracle `fsExists : String → Bool` (`Path.exists`);
`Path` joins on relative slugs concatenate with `/`. -/

/-- The `for ext in [".md", ".mdx"]` loop body of `resolve_path`: try
`base/{slug}{ext}`, then `base/{slug}/index{ext}`, then the next
extension. -/
def resolveLoop (fsExists : String → Bool) (base slug : String) :
    List String → Option String
  | [] => none
  | ext :: rest =>
      if fsExists (base ++ "/" ++ slug ++ ext) then some (base ++ "/" ++ slug ++ ext)
      else if fsExists (base ++ "/" ++ slug ++ "/index" ++ ext) then
        some (base ++ "/" ++ slug ++ "/index" ++ ext)
      else resolveLoop fsExists base slug rest

/-- `resolve_path(repo_path, url_path)`. -/
def resolve_path (fsExists : String → Bool) (repo_path url_path : String) :
    Option String :=
  let slug := pyReplace url_path "/handbook/" ""
  let base := repo_path ++ "/contents/handbook"
  resolveLoop fsExists base slug [".md", ".mdx"]

/-! ## `get_section_files`

`base.rglob(pat)` is modelled by an oracle `listing : List String`: the
full path strings of every file under the section directory, in
traversal order.  `sorted` over `Path` values compares the full path
strings, embedded via insertion sort (a stable sort, extensionally equal
to Python's stable `sorted` for this total preorder).  Deriving a title
(frontmatter title, else a humanized stem) reads file contents; that
derivation is the oracle `titleOf`, irrelevant to the ordering and
dedup claims about this function. -/

/-- Python string `≤` as a relation on `String`, for sorting. -/
def strLeP (a b : String) : Prop := lexLe a.data b.data = true

instance : DecidableRel strLeP := fun a b =>
  if h : lexLe a.data b.data = true then .isTrue h else .isFalse h

/-- `sorted(...)` on path strings. -/
def pySorted (l : List String) : List String := List.insertionSort strLeP l

/-- `get_section_files(repo_path, section_dir)`: `.md` files sorted, then
`.mdx` files sorted, each skipping `_snippets` paths, paired with
titles. -/
def get_section_files (listing : List String) (titleOf : String → String) :
    List (String × String) :=
  let mds := (pySorted (listing.filter (fun p => pyEndsWith p ".md"))).filter
    (fun p => !(containsSub "/_snippets/" p))
  let mdxs := (pySorted (listing.filter (fun p => pyEndsWith p ".mdx"))).filter
    (fun p => !(containsSub "/_snippets/" p))
  mds.map (fun p => (titleOf p, p)) ++ mdxs.map (fun p => (titleOf p, p))

/-! ## The chapter-assembly slice of `build_epub`

The orchestration loop of `build_epub` (lines 506-570) as far as the
claims reach: which files become Part I chapters, which become section
chapters, and the `file_id` each chapter receives.  Inputs: the nav
manifest's `to` fields, the resolver (a function, as `resolve_path` is
pure in the filesystem oracle), and each `SECTION_ORDER` directory's
`get_section_files` path list. -/

/-- `f"ch_{i:02d}"`. -/
def chId (i : Nat) : String := String.mk ('c' :: 'h' :: '_' :: pad2 i)

/-- `f"s{p}_{j:02d}"`. -/
def sId (p j : Nat) : String := String.mk ('s' :: (decDigits p ++ '_' :: pad2 j))

/-- Part I: one `(file_id, path)` chapter per resolvable nav link, with
`enumerate`-derived ids (skipped links leave gaps, as in the source). -/
def part1Chapters (navLinks : List String) (resolve : String → Option String) :
    List (String × String) :=
  navLinks.enum.filterMap fun il =>
    (resolve il.2).map (fun p => (chId (il.1 + 1), p))

/-- `included_files` right before the section loop: every path any nav
link resolves to. -/
def includedFiles (navLinks : List String) (resolve : String → Option String) :
    List String :=
  navLinks.filterMap resolve

/-- The `for section_dir, section_title in SECTION_ORDER` loop: filter
each section's files against `included_files`, skip the section when
nothing is left (`part_num` does not advance), otherwise emit its
chapters with `f"s{part_num}_{j+1:02d}"` ids and add the kept paths to
`included_files`. -/
def sectionChapters : Nat → List String → List (List String) →
    List (List (String × String))
  | _, _, [] => []
  | p, included, files :: rest =>
      let kept := files.filter (fun f => !(included.contains f))
      if kept.isEmpty then sectionChapters p included rest
      else (kept.enum.map (fun jf => (sId p (jf.1 + 1), jf.2))) ::
        sectionChapters (p + 1) (included ++ kept) rest

/-- The chapter layout of one build: Part I chapters and the per-section
chapter lists. -/
def build_model (navLinks : List String) (resolve : String → Option String)
    (sections : List (List String)) :
    List (String × String) × List (List (String × String)) :=
  (part1Chapters navLinks resolve,
   sectionChapters 2 (includedFiles navLinks resolve) sections)

/-! ## Spec-side definitions

Definitions transcribed from the specification's words, for the
refinement claims that compare them with the code. -/

/-- The Markup Sanitizer pipeline in the order §4.2 of the spec states
it: (1) whole-line import and export statements, (2) self-closing
component tags, (3) paired component tags keeping inner content,
(4) remaining component tags, (5) handbook links, (6) other internal
links, (7) blank-line collapsing. -/
def sanitizer_spec_stated (content : String) : String :=
  collapseBlankLines
    (rewriteInternalLinks
      (rewriteHandbookLinks
        (removeRemainingTags
          (removePairedTags
            (removeSelfClosingSimple
              (removeSelfClosingAttr
                (removeExports
                  (removeImports content))))))))

/-- The sanitizer pipeline in the amended order: imports first, then
self-closing tags with attributes, paired tags (keeping inner content),
bare self-closing tags, remaining tags, then exports, then handbook
links, other internal links, and blank-line collapsing. -/
def sanitizer_spec_amended (content : String) : String :=
  collapseBlankLines
    (rewriteInternalLinks
      (rewriteHandbookLinks
        (removeExports
          (removeRemainingTags
            (removeSelfClosingSimple
              (removePairedTags
                (removeSelfClosingAttr
                  (removeImports content))))))))

/-- The candidate files of §4.3, in the order the code actually probes
them: `<slug>.md`, `<slug>/index.md`, `<slug>.mdx`, `<slug>/index.mdx`. -/
def candidatePaths (repo_path url_path : String) : List String :=
  let slug := pyReplace url_path "/handbook/" ""
  let base := repo_path ++ "/contents/handbook"
  [base ++ "/" ++ slug ++ ".md",
   base ++ "/" ++ slug ++ "/index.md",
   base ++ "/" ++ slug ++ ".mdx",
   base ++ "/" ++ slug ++ "/index.mdx"]

/-- The amended blank-line rule, stated directly on the text: each
maximal run of 4 or more consecutive newline characters becomes exactly
3 newlines (two blank lines); shorter runs are kept verbatim. -/
def collapseSpec : List Char → List Char
  | [] => []
  | c :: rest =>
      if _h : c = '\n' then
        (if 4 ≤ runLen isNl (c :: rest) then ['\n', '\n', '\n']
         else List.replicate (runLen isNl (c :: rest)) '\n') ++
        collapseSpec (List.drop (runLen isNl (c :: rest)) (c :: rest))
      else c :: collapseSpec rest
termination_by l => l.length
decreasing_by
  · have hr : runLen isNl (c :: rest) = runLen isNl rest + 1 := by
      simp [runLen, isNl, _h]
    simp only [List.length_drop, List.length_cons, hr]
    omega
  · simp

/-! ## Lemmas: decimal formatting is injective -/

/-- Inverse of `digitChar` on decimal digits. -/
def digitVal : Char → Nat
  | '1' => 1 | '2' => 2 | '3' => 3 | '4' => 4 | '5' => 5
  | '6' => 6 | '7' => 7 | '8' => 8 | '9' => 9 | _ => 0

/-- The number a digit string denotes. -/
def digitsVal (l : List Char) : Nat :=
  l.foldl (fun a c => a * 10 + digitVal c) 0

theorem digitVal_digitChar {d : Nat} (h : d < 10) : digitVal (digitChar d) = d := by
  interval_cases d <;> rfl

theorem digitChar_isDigit (d : Nat) : (digitChar d).isDigit = true := by
  unfold digitChar
  split <;> decide

theorem digitsVal_append_digit (l : List Char) (c : Char) :
    digitsVal (l ++ [c]) = digitsVal l * 10 + digitVal c := by
  simp [digitsVal, List.foldl_append]

theorem digitsVal_decDigitsAux : ∀ fuel n, n < fuel →
    digitsVal (decDigitsAux fuel n) = n := by
  intro fuel
  induction fuel with
  | zero => omega
  | succ f ih =>
      intro n hn
      by_cases h10 : n < 10
      · simp [decDigitsAux, h10, digitsVal, digitVal_digitChar h10]
      · have hdiv : n / 10 < f := by
          have := Nat.div_lt_self (by omega : 0 < n) (by omega : 1 < 10)
          omega
        simp only [decDigitsAux, h10, if_false, digitsVal_append_digit, ih _ hdiv,
          digitVal_digitChar (Nat.mod_lt n (by omega : 0 < 10))]
        omega

theorem digitsVal_decDigits (n : Nat) : digitsVal (decDigits n) = n :=
  digitsVal_decDigitsAux (n + 1) n (by omega)

theorem digitsVal_pad2 (n : Nat) : digitsVal (pad2 n) = n := by
  unfold pad2
  by_cases h : n < 10
  · have : digitsVal ('0' :: decDigits n) = digitsVal (decDigits n) := by
      simp [digitsVal, digitVal]
    simp [h, this, digitsVal_decDigits]
  · simp [h, digitsVal_decDigits]

theorem pad2_inj {m n : Nat} (h : pad2 m = pad2 n) : m = n := by
  have := congrArg digitsVal h
  rwa [digitsVal_pad2, digitsVal_pad2] at this

theorem decDigits_inj {m n : Nat} (h : decDigits m = decDigits n) : m = n := by
  have := congrArg digitsVal h
  rwa [digitsVal_decDigits, digitsVal_decDigits] at this

theorem decDigitsAux_isDigit : ∀ fuel n c, c ∈ decDigitsAux fuel n →
    c.isDigit = true := by
  intro fuel
  induction fuel with
  | zero => intro n c hc; simp [decDigitsAux] at hc
  | succ f ih =>
      intro n c hc
      by_cases h10 : n < 10
      · simp [decDigitsAux, h10] at hc
        subst hc
        exact digitChar_isDigit n
      · simp [decDigitsAux, h10] at hc
        rcases hc with hc | hc
        · exact ih (n / 10) c hc
        · subst hc
          exact digitChar_isDigit _

theorem decDigits_isDigit {n : Nat} {c : Char} (hc : c ∈ decDigits n) :
    c.isDigit = true :=
  decDigitsAux_isDigit (n + 1) n c hc

theorem pad2_isDigit {n : Nat} {c : Char} (hc : c ∈ pad2 n) : c.isDigit = true := by
  unfold pad2 at hc
  by_cases h : n < 10
  · simp [h] at hc
    rcases hc with hc | hc
    · subst hc; decide
    · exact decDigits_isDigit hc
  · simp [h] at hc
    exact decDigits_isDigit hc

/-- Splitting at the first `'_'` is unambiguous when neither left part
contains `'_'`. -/
theorem split_underscore : ∀ (a1 : List Char) {a2 b1 b2 : List Char},
    (∀ c ∈ a1, c.isDigit = true) → (∀ c ∈ a2, c.isDigit = true) →
    a1 ++ '_' :: b1 = a2 ++ '_' :: b2 → a1 = a2 ∧ b1 = b2 := by
  intro a1
  induction a1 with
  | nil =>
      intro a2 b1 b2 _ h2 heq
      cases a2 with
      | nil => simpa using heq
      | cons x xs =>
          exfalso
          simp only [List.nil_append, List.cons_append, List.cons.injEq] at heq
          have hx := h2 x (by simp)
          rw [← heq.1] at hx
          exact absurd hx (by decide)
  | cons x xs ih =>
      intro a2 b1 b2 h1 h2 heq
      cases a2 with
      | nil =>
          exfalso
          simp only [List.nil_append, List.cons_append, List.cons.injEq] at heq
          have hx := h1 x (by simp)
          rw [heq.1] at hx
          exact absurd hx (by decide)
      | cons y ys =>
          simp only [List.cons_append, List.cons.injEq] at heq
          obtain ⟨hxy, htail⟩ := heq
          obtain ⟨he, hb⟩ := ih (fun c hc => h1 c (by simp [hc]))
            (fun c hc => h2 c (by simp [hc])) htail
          exact ⟨by simp [hxy, he], hb⟩

theorem chId_inj {m n : Nat} (h : chId m = chId n) : m = n := by
  unfold chId at h
  have := congrArg String.data h
  simp only [String.data] at this
  exact pad2_inj (by simpa using this)

theorem sId_inj {p1 j1 p2 j2 : Nat} (h : sId p1 j1 = sId p2 j2) :
    p1 = p2 ∧ j1 = j2 := by
  unfold sId at h
  have hd := congrArg String.data h
  simp only [String.data, List.cons.injEq] at hd
  obtain ⟨hsplit1, hsplit2⟩ := split_underscore (decDigits p1)
    (fun c hc => decDigits_isDigit hc) (fun c hc => decDigits_isDigit hc) hd.2
  exact ⟨decDigits_inj hsplit1, pad2_inj hsplit2⟩

theorem chId_ne_sId (m p j : Nat) : chId m ≠ sId p j := by
  unfold chId sId
  intro h
  have := congrArg String.data h
  simp at this

/-! ## Lemmas: chapter identifiers and deduplication in `build_epub` -/

theorem part1_ids_nodup (navLinks : List String) (resolve : String → Option String) :
    ((part1Chapters navLinks resolve).map Prod.fst).Nodup := by
  unfold part1Chapters
  rw [List.map_filterMap]
  have henum : navLinks.enum.Pairwise (fun a b => a.1 ≠ b.1) := by
    have : (navLinks.enum.map Prod.fst).Nodup := by
      rw [List.enum_map_fst]; exact List.nodup_range _
    rwa [List.Nodup, List.pairwise_map] at this
  refine List.Pairwise.filterMap _ ?_ henum
  intro a a' hne b hb b' hb'
  simp only [Option.map_map, Option.mem_def, Option.map_eq_some'] at hb hb'
  obtain ⟨p, _, rfl⟩ := hb
  obtain ⟨p', _, rfl⟩ := hb'
  intro heq
  have := chId_inj heq
  exact hne (by omega)

theorem sectionChapters_mem_id :
    ∀ (secs : List (List String)) (p : Nat) (inc : List String)
      {sec : List (String × String)} {ch : String × String},
      sec ∈ sectionChapters p inc secs → ch ∈ sec →
      ∃ q j, p ≤ q ∧ ch.1 = sId q (j + 1) := by
  intro secs
  induction secs with
  | nil => intro p inc sec ch hsec; simp [sectionChapters] at hsec
  | cons files rest ih =>
      intro p inc sec ch hsec hch
      rw [sectionChapters] at hsec
      by_cases hk : (files.filter (fun f => !(inc.contains f))).isEmpty
      · rw [if_pos hk] at hsec
        exact (ih p inc hsec hch).imp fun q hq => hq
      · rw [if_neg hk] at hsec
        rcases List.mem_cons.mp hsec with rfl | hsec
        · obtain ⟨jf, _, rfl⟩ := List.mem_map.mp hch
          exact ⟨p, jf.1, le_refl p, rfl⟩
        · obtain ⟨q, j, hq, hid⟩ := ih (p+1) _ hsec hch
          exact ⟨q, j, by omega, hid⟩

theorem sectionChapters_flatten_id (secs : List (List String)) (p : Nat)
    (inc : List String) {id : String}
    (hid : id ∈ ((sectionChapters p inc secs).flatten).map Prod.fst) :
    ∃ q j, p ≤ q ∧ id = sId q (j + 1) := by
  obtain ⟨ch, hch, rfl⟩ := List.mem_map.mp hid
  obtain ⟨sec, hsec, hch⟩ := List.mem_flatten.mp hch
  exact sectionChapters_mem_id secs p inc hsec hch

theorem sectionChapters_ids_nodup :
    ∀ (secs : List (List String)) (p : Nat) (inc : List String),
      (((sectionChapters p inc secs).flatten).map Prod.fst).Nodup := by
  intro secs
  induction secs with
  | nil => intro p inc; simp [sectionChapters]
  | cons files rest ih =>
      intro p inc
      rw [sectionChapters]
      by_cases hk : (files.filter (fun f => !(inc.contains f))).isEmpty
      · rw [if_pos hk]; exact ih p inc
      · rw [if_neg hk]
        rw [List.flatten_cons, List.map_append, List.nodup_append]
        refine ⟨?_, ih (p+1) _, ?_⟩
        · rw [List.map_map]
          have henum : (files.filter (fun f => !(inc.contains f))).enum.Pairwise
              (fun a b => a.1 ≠ b.1) := by
            have hmf : ((files.filter (fun f => !(inc.contains f))).enum.map
                Prod.fst).Nodup := by
              rw [List.enum_map_fst]; exact List.nodup_range _
            rwa [List.Nodup, List.pairwise_map] at hmf
          rw [List.Nodup, List.pairwise_map]
          refine henum.imp ?_
          intro a b hne heq
          have := (sId_inj heq).2
          exact hne (by omega)
        · intro x hx hx'
          rw [List.map_map] at hx
          obtain ⟨jf, _, rfl⟩ := List.mem_map.mp hx
          obtain ⟨q, j, hq, hid⟩ := sectionChapters_flatten_id rest (p+1) _ hx'
          have := (sId_inj hid).1
          omega

theorem sectionChapters_not_included :
    ∀ (secs : List (List String)) (p : Nat) (inc : List String)
      {sec : List (String × String)} {ch : String × String},
      sec ∈ sectionChapters p inc secs → ch ∈ sec → ch.2 ∉ inc := by
  intro secs
  induction secs with
  | nil => intro p inc sec ch hsec; simp [sectionChapters] at hsec
  | cons files rest ih =>
      intro p inc sec ch hsec hch
      rw [sectionChapters] at hsec
      by_cases hk : (files.filter (fun f => !(inc.contains f))).isEmpty
      · rw [if_pos hk] at hsec
        exact ih p inc hsec hch
      · rw [if_neg hk] at hsec
        rcases List.mem_cons.mp hsec with rfl | hsec
        · obtain ⟨jf, hjf, rfl⟩ := List.mem_map.mp hch
          have hmem : jf.2 ∈ files.filter (fun f => !(inc.contains f)) := by
            have : jf.2 ∈ (files.filter (fun f => !(inc.contains f))).enum.map
                Prod.snd := List.mem_map.mpr ⟨jf, hjf, rfl⟩
            rwa [List.enum_map_snd] at this
          have := (List.mem_filter.mp hmem).2
          simp only [Bool.not_eq_true', List.contains, List.elem_eq_mem,
            decide_eq_false_iff_not] at this
          exact this
        · have hnot := ih (p+1) (inc ++ files.filter (fun f => !(inc.contains f)))
            hsec hch
          exact fun hmem => hnot (List.mem_append_left _ hmem)

/-- The Part I chapter paths are exactly the paths recorded in
`included_files`. -/
theorem part1_paths_eq_included (navLinks : List String)
    (resolve : String → Option String) :
    (part1Chapters navLinks resolve).map Prod.snd = includedFiles navLinks resolve := by
  unfold part1Chapters includedFiles
  rw [List.map_filterMap]
  have : navLinks.filterMap resolve =
      List.filterMap (resolve ∘ Prod.snd) navLinks.enum := by
    rw [← List.filterMap_map, List.enum_map_snd]
  rw [this]
  congr 1
  funext il
  simp [Option.map_map, Function.comp]

/-! ## Lemmas: `lexLe` is a total preorder -/

theorem lexLe_total : ∀ a b : List Char, lexLe a b = true ∨ lexLe b a = true := by
  intro a
  induction a with
  | nil => intro b; left; rfl
  | cons x xs ih =>
      intro b
      cases b with
      | nil => right; rfl
      | cons y ys =>
          rcases lt_trichotomy x y with hlt | heq | hgt
          · left; simp [lexLe, hlt]
          · subst heq
            rcases ih ys with h | h
            · left; simp [lexLe, h]
            · right; simp [lexLe, h]
          · right; simp [lexLe, hgt]

theorem lexLe_trans : ∀ a b c : List Char,
    lexLe a b = true → lexLe b c = true → lexLe a c = true := by
  intro a
  induction a with
  | nil => intro b c _ _; rfl
  | cons x xs ih =>
      intro b c hab hbc
      cases b with
      | nil => simp [lexLe] at hab
      | cons y ys =>
          cases c with
          | nil => simp [lexLe] at hbc
          | cons z zs =>
              simp only [lexLe] at hab hbc ⊢
              by_cases hxy : x < y
              · by_cases hyz : y < z
                · simp [lt_trans hxy hyz]
                · by_cases hyz' : y = z
                  · subst hyz'; simp [hxy]
                  · simp [hyz, hyz'] at hbc
              · by_cases hxy' : x = y
                · subst hxy'
                  by_cases hxz : x < z
                  · simp [hxz]
                  · by_cases hxz' : x = z
                    · subst hxz'
                      rw [if_neg (lt_irrefl x), if_pos rfl] at hab hbc ⊢
                      exact ih ys zs hab hbc
                    · exfalso
                      simp [hxz, hxz'] at hbc
                · simp [hxy, hxy'] at hab

instance : IsTotal String strLeP :=
  ⟨fun a b => lexLe_total a.data b.data⟩

instance : IsTrans String strLeP :=
  ⟨fun a b c => lexLe_trans a.data b.data c.data⟩

/-! ## Lemmas: the blank-line rule computes `collapseSpec`

The chain: `matchSeq` on `patBlank` finds exactly the maximal newline
runs of length ≥ 4 (greedy `{4,}`), `findFrom` finds the leftmost one,
and the `re.sub` loop therefore rewrites each such run to three
newlines — which is what `collapseSpec` does directly. -/

theorem runLen_drop_pos_lt {s : List Char} {i : Nat}
    (h : 1 ≤ runLen isNl (List.drop i s)) : i < s.length := by
  by_contra hge
  rw [List.drop_eq_nil_of_le (by omega)] at h
  simp [runLen] at h

theorem head_nl_of_runLen_pos {s : List Char} {i : Nat} (hi : i < s.length)
    (h : 1 ≤ runLen isNl (List.drop i s)) : s[i] = '\n' := by
  by_cases hc : s[i] = '\n'
  · exact hc
  · rw [List.drop_eq_getElem_cons hi] at h
    simp [runLen, isNl, hc] at h

theorem runLen_drop_succ {s : List Char} {i : Nat} (hi : i < s.length)
    (hc : s[i] = '\n') :
    runLen isNl (List.drop i s) = runLen isNl (List.drop (i+1) s) + 1 := by
  rw [List.drop_eq_getElem_cons hi]
  simp [runLen, isNl, hc]

theorem runLen_drop_add {s : List Char} :
    ∀ (j i : Nat), j ≤ runLen isNl (List.drop i s) →
      runLen isNl (List.drop (i+j) s) = runLen isNl (List.drop i s) - j := by
  intro j
  induction j with
  | zero => intro i _; simp
  | succ j ih =>
      intro i hj
      have h1 : 1 ≤ runLen isNl (List.drop i s) := by omega
      have hi := runLen_drop_pos_lt h1
      have hc := head_nl_of_runLen_pos hi h1
      have hD := runLen_drop_succ hi hc
      have hIH := ih (i+1) (by omega)
      have heq : i + (j+1) = (i+1) + j := by omega
      rw [heq, hIH]
      omega

theorem take_runLen_replicate : ∀ l : List Char,
    l.take (runLen isNl l) = List.replicate (runLen isNl l) '\n' := by
  intro l
  induction l with
  | nil => simp [runLen]
  | cons c rest ih =>
      by_cases hc : c = '\n'
      · subst hc
        simp [runLen, isNl, List.replicate_succ, ih]
      · simp [runLen, isNl, hc]

theorem matchSeq_patBlank (f : Nat) (s : List Char) (i : Nat) (caps : Caps) :
    matchSeq (f + 2) s patBlank i caps =
      if 4 ≤ runLen isNl (List.drop i s) then
        some (i + runLen isNl (List.drop i s), caps)
      else none := by
  by_cases h4 : 4 ≤ runLen isNl (List.drop i s)
  · rw [if_pos h4]
    obtain ⟨h, hm⟩ : ∃ h, runLen isNl (List.drop i s) = h + 1 :=
      ⟨runLen isNl (List.drop i s) - 1, by omega⟩
    rw [hm] at h4 ⊢
    show matchSeq (f + 1 + 1) s (.repMin isNl 4 :: []) i caps = _
    simp only [matchSeq, hm]
    rw [if_neg (by omega), cands, if_pos rfl, candsDown,
      if_neg (by omega : ¬ h + 1 < 4)]
    simp [firstSome, matchSeq]
  · rw [if_neg h4]
    show matchSeq (f + 1 + 1) s (.repMin isNl 4 :: []) i caps = _
    simp only [matchSeq]
    rw [if_pos (by omega)]

/-- The position of the first newline run of length ≥ 4 at or after `i`,
if any. -/
def firstBig (s : List Char) (i : Nat) : Option Nat :=
  if 4 ≤ runLen isNl (List.drop i s) then some i
  else if i < s.length then firstBig s (i + 1) else none
termination_by s.length - i
decreasing_by omega

theorem firstBig_ge {s : List Char} :
    ∀ (k i b : Nat), s.length - i ≤ k → firstBig s i = some b →
      i ≤ b ∧ 4 ≤ runLen isNl (List.drop b s) := by
  intro k
  induction k with
  | zero =>
      intro i b hk h
      rw [firstBig] at h
      have hrL : runLen isNl (List.drop i s) = 0 := by
        rw [List.drop_eq_nil_of_le (by omega)]; rfl
      rw [hrL] at h
      simp only [if_neg (by omega : ¬ (4:Nat) ≤ 0),
        if_neg (by omega : ¬ i < s.length)] at h
      exact absurd h (by simp)
  | succ k ih =>
      intro i b hk h
      rw [firstBig] at h
      by_cases h4 : 4 ≤ runLen isNl (List.drop i s)
      · rw [if_pos h4] at h
        obtain rfl : i = b := by simpa using h
        exact ⟨le_refl i, h4⟩
      · rw [if_neg h4] at h
        by_cases hi : i < s.length
        · rw [if_pos hi] at h
          obtain ⟨h1, h2⟩ := ih (i+1) b (by omega) h
          exact ⟨by omega, h2⟩
        · rw [if_neg hi] at h
          exact absurd h (by simp)

theorem firstBig_none_mono {s : List Char} :
    ∀ (k i j : Nat), j - i ≤ k → i ≤ j → firstBig s i = none →
      firstBig s j = none := by
  intro k
  induction k with
  | zero =>
      intro i j hk hij h
      obtain rfl : i = j := by omega
      exact h
  | succ k ih =>
      intro i j hk hij h
      by_cases hij' : i = j
      · subst hij'; exact h
      · rw [firstBig] at h
        by_cases h4 : 4 ≤ runLen isNl (List.drop i s)
        · rw [if_pos h4] at h; exact absurd h (by simp)
        · rw [if_neg h4] at h
          by_cases hi : i < s.length
          · rw [if_pos hi] at h
            exact ih (i+1) j (by omega) (by omega) h
          · rw [firstBig]
            have hrL : runLen isNl (List.drop j s) = 0 := by
              rw [List.drop_eq_nil_of_le (by omega)]; rfl
            rw [hrL]
            simp only [if_neg (by omega : ¬ (4:Nat) ≤ 0),
              if_neg (by omega : ¬ j < s.length)]

theorem firstBig_skip_run {s : List Char} :
    ∀ (m i : Nat), runLen isNl (List.drop i s) < 4 →
      m ≤ runLen isNl (List.drop i s) → firstBig s i = firstBig s (i + m) := by
  intro m
  induction m with
  | zero => intro i _ _; rfl
  | succ m ih =>
      intro i h4 hm
      have h1 : 1 ≤ runLen isNl (List.drop i s) := by omega
      have hi := runLen_drop_pos_lt h1
      have hc := head_nl_of_runLen_pos hi h1
      have hD := runLen_drop_succ hi hc
      have hstep : firstBig s i = firstBig s (i + 1) := by
        rw [firstBig, if_neg (by omega), if_pos hi]
      have hih := ih (i+1) (by omega) (by omega)
      rw [hstep, hih]
      congr 1
      omega

theorem collapseSpec_of_firstBig_none {s : List Char} :
    ∀ (k i : Nat), s.length - i ≤ k → firstBig s i = none →
      collapseSpec (List.drop i s) = List.drop i s := by
  intro k
  induction k with
  | zero =>
      intro i hk _
      rw [List.drop_eq_nil_of_le (by omega)]
      simp [collapseSpec]
  | succ k ih =>
      intro i hk h
      have hstep := h
      rw [firstBig] at hstep
      by_cases h4 : 4 ≤ runLen isNl (List.drop i s)
      · rw [if_pos h4] at hstep; exact absurd hstep (by simp)
      · rw [if_neg h4] at hstep
        by_cases hi : i < s.length
        · rw [if_pos hi] at hstep
          by_cases hc : s[i] = '\n'
          · have h1 : 1 ≤ runLen isNl (List.drop i s) := by
              rw [List.drop_eq_getElem_cons hi]
              simp [runLen, isNl, hc]
            set R := runLen isNl (List.drop i s) with hR
            have hcol : collapseSpec (List.drop i s) =
                List.replicate R '\n' ++ collapseSpec (List.drop (i + R) s) := by
              conv_lhs => rw [List.drop_eq_getElem_cons hi]
              rw [collapseSpec]
              rw [dif_pos hc]
              rw [← List.drop_eq_getElem_cons hi, ← hR]
              rw [if_neg h4, List.drop_drop]
            rw [hcol]
            have hnone : firstBig s (i + R) = none :=
              firstBig_none_mono (s := s) R i (i + R) (by omega) (by omega) h
            rw [ih (i + R) (by omega) hnone]
            have : List.replicate R '\n' = (List.drop i s).take R := by
              rw [take_runLen_replicate (List.drop i s), hR]
            rw [this, ← List.drop_drop, List.take_append_drop]
          · have hcol : collapseSpec (List.drop i s) =
                s[i] :: collapseSpec (List.drop (i+1) s) := by
              conv_lhs => rw [List.drop_eq_getElem_cons hi]
              rw [collapseSpec, dif_neg hc]
            rw [hcol, ih (i+1) (by omega) hstep,
              ← List.drop_eq_getElem_cons hi]
        · rw [List.drop_eq_nil_of_le (by omega)]
          simp [collapseSpec]

theorem collapseSpec_of_firstBig_some {s : List Char} :
    ∀ (k i b : Nat), b - i ≤ k → firstBig s i = some b →
      collapseSpec (List.drop i s) =
        (List.drop i s).take (b - i) ++ ['\n', '\n', '\n'] ++
          collapseSpec (List.drop (b + runLen isNl (List.drop b s)) s) := by
  intro k
  induction k with
  | zero =>
      intro i b hk h
      obtain ⟨hib, h4⟩ := firstBig_ge (s := s) (s.length) i b (by omega) h
      obtain rfl : i = b := by omega
      have h1 : 1 ≤ runLen isNl (List.drop i s) := by omega
      have hi := runLen_drop_pos_lt h1
      have hc := head_nl_of_runLen_pos hi h1
      have hcol : collapseSpec (List.drop i s) =
          ['\n', '\n', '\n'] ++
            collapseSpec (List.drop (i + runLen isNl (List.drop i s)) s) := by
        conv_lhs => rw [List.drop_eq_getElem_cons hi]
        rw [collapseSpec, dif_pos hc, ← List.drop_eq_getElem_cons hi,
          if_pos h4, List.drop_drop]
      rw [hcol]
      simp
  | succ k ih =>
      intro i b hk h
      obtain ⟨hib, h4b⟩ := firstBig_ge (s := s) (s.length) i b (by omega) h
      have hstep := h
      rw [firstBig] at hstep
      by_cases h4 : 4 ≤ runLen isNl (List.drop i s)
      · rw [if_pos h4] at hstep
        obtain rfl : i = b := by simpa using hstep
        have h1 : 1 ≤ runLen isNl (List.drop i s) := by omega
        have hi := runLen_drop_pos_lt h1
        have hc := head_nl_of_runLen_pos hi h1
        have hcol : collapseSpec (List.drop i s) =
            ['\n', '\n', '\n'] ++
              collapseSpec (List.drop (i + runLen isNl (List.drop i s)) s) := by
          conv_lhs => rw [List.drop_eq_getElem_cons hi]
          rw [collapseSpec, dif_pos hc, ← List.drop_eq_getElem_cons hi,
            if_pos h4, List.drop_drop]
        rw [hcol]
        simp
      · rw [if_neg h4] at hstep
        by_cases hi : i < s.length
        · rw [if_pos hi] at hstep
          have hib1 : i + 1 ≤ b :=
            (firstBig_ge (s := s) (s.length) (i+1) b (by omega) hstep).1
          by_cases hc : s[i] = '\n'
          · set R := runLen isNl (List.drop i s) with hR
            have h1 : 1 ≤ R := by
              rw [hR, List.drop_eq_getElem_cons hi]
              simp [runLen, isNl, hc]
            have hskip : firstBig s (i + R) = some b := by
              rw [← firstBig_skip_run (s := s) R i (by omega) (le_refl _)]
              exact h
            have hibR : i + R ≤ b :=
              (firstBig_ge (s := s) (s.length) (i+R) b (by omega) hskip).1
            have hcol : collapseSpec (List.drop i s) =
                List.replicate R '\n' ++ collapseSpec (List.drop (i + R) s) := by
              conv_lhs => rw [List.drop_eq_getElem_cons hi]
              rw [collapseSpec, dif_pos hc, ← List.drop_eq_getElem_cons hi, ← hR,
                if_neg h4, List.drop_drop]
            rw [hcol, ih (i + R) b (by omega) hskip]
            have hrepl : List.replicate R '\n' = (List.drop i s).take R := by
              rw [take_runLen_replicate (List.drop i s), hR]
            have htake : (List.drop i s).take (b - i) =
                (List.drop i s).take R ++ (List.drop (i + R) s).take (b - (i + R)) := by
              have hsum : b - i = R + (b - (i + R)) := by omega
              rw [hsum, List.take_add, List.drop_drop]
            rw [htake, hrepl]
            simp [List.append_assoc]
          · have hcol : collapseSpec (List.drop i s) =
                s[i] :: collapseSpec (List.drop (i+1) s) := by
              conv_lhs => rw [List.drop_eq_getElem_cons hi]
              rw [collapseSpec, dif_neg hc]
            rw [hcol, ih (i+1) b (by omega) hstep]
            have htake : (List.drop i s).take (b - i) =
                s[i] :: (List.drop (i+1) s).take (b - (i + 1)) := by
              conv_lhs => rw [List.drop_eq_getElem_cons hi]
              have hsum : b - i = (b - (i+1)) + 1 := by omega
              rw [hsum, List.take_succ_cons]
            rw [htake]
            simp
        · rw [if_neg hi] at hstep
          exact absurd hstep (by simp)

theorem findFrom_patBlank {s : List Char} :
    ∀ (k i : Nat), s.length + 1 - i ≤ k →
      findFrom k s patBlank i =
        (firstBig s i).map
          (fun b => (b, b + runLen isNl (List.drop b s), ([] : Caps))) := by
  intro k
  induction k with
  | zero =>
      intro i hk
      have hnone : firstBig s i = none := by
        rw [firstBig]
        have hrL : runLen isNl (List.drop i s) = 0 := by
          rw [List.drop_eq_nil_of_le (by omega)]; rfl
        rw [hrL]
        simp only [if_neg (by omega : ¬ (4:Nat) ≤ 0),
          if_neg (by omega : ¬ i < s.length)]
      rw [hnone]
      rfl
  | succ k ih =>
      intro i hk
      have hfuel : patBlank.length + 1 = 0 + 2 := rfl
      rw [findFrom, hfuel, matchSeq_patBlank]
      by_cases h4 : 4 ≤ runLen isNl (List.drop i s)
      · rw [if_pos h4, firstBig, if_pos h4]
        rfl
      · rw [if_neg h4, firstBig, if_neg h4]
        by_cases hi : i < s.length
        · rw [if_pos hi, if_pos hi, ih (i+1) (by omega)]
        · rw [if_neg hi, if_neg hi]
          rfl

theorem reSubAux_patBlank {s : List Char} :
    ∀ (k pos : Nat), s.length + 1 - pos ≤ k →
      reSubAux k s patBlank replNl3 pos = collapseSpec (List.drop pos s) := by
  intro k
  induction k with
  | zero =>
      intro pos hk
      rw [reSubAux, List.drop_eq_nil_of_le (by omega)]
      simp [collapseSpec]
  | succ k ih =>
      intro pos hk
      rw [reSubAux, findFrom_patBlank (s := s) (s.length + 1) pos (by omega)]
      cases hfb : firstBig s pos with
      | none =>
          simp only [Option.map_none']
          exact (collapseSpec_of_firstBig_none (s := s) (s.length) pos
            (by omega) hfb).symm
      | some b =>
          obtain ⟨hpb, h4b⟩ := firstBig_ge (s := s) (s.length) pos b (by omega) hfb
          simp only [Option.map_some']
          have hblt : b < b + runLen isNl (List.drop b s) := by omega
          rw [if_pos hblt, ih (b + runLen isNl (List.drop b s)) (by omega)]
          rw [collapseSpec_of_firstBig_some (s := s) (b - pos) pos b
            (le_refl _) hfb]
          simp [replNl3, List.append_assoc]

theorem reSub_patBlank (l : List Char) :
    reSub patBlank replNl3 l = collapseSpec l := by
  unfold reSub
  rw [reSubAux_patBlank (s := l) (l.length + 1) 0 (by omega)]
  simp

theorem collapseBlankLines_eq_collapseSpec (s : String) :
    collapseBlankLines s = String.mk (collapseSpec s.data) := by
  unfold collapseBlankLines reSubStr
  rw [reSub_patBlank]

/-! ## Remaining helper lemmas -/

theorem find?_four (p : String → Bool) (a b c d : String) :
    List.find? p [a, b, c, d] =
      if p a then some a else if p b then some b
      else if p c then some c else if p d then some d else none := by
  by_cases ha : p a <;> by_cases hb : p b <;> by_cases hc : p c <;>
    by_cases hd : p d <;> simp [List.find?, ha, hb, hc, hd]

theorem part1_ids_shape {navLinks : List String} {resolve : String → Option String}
    {id : String} (h : id ∈ (part1Chapters navLinks resolve).map Prod.fst) :
    ∃ i, id = chId (i + 1) := by
  obtain ⟨ch, hch, rfl⟩ := List.mem_map.mp h
  obtain ⟨il, _, hmap⟩ := List.mem_filterMap.mp hch
  obtain ⟨p, _, rfl⟩ := Option.map_eq_some'.mp hmap
  exact ⟨il.1, rfl⟩

/-! ## The claims -/

/-- C1 (counterexample): the Path Resolver does not probe in the claimed
order `<slug>.md`, `<slug>.mdx`, `<slug>/index.md`, `<slug>/index.mdx`.
With both `a.mdx` and `a/index.md` on disk, the code returns
`a/index.md`, not `a.mdx` as the claim requires. -/
theorem C1_counterexample :
    resolve_path
      (fun p => p = "r/contents/handbook/a/index.md" ||
        p = "r/contents/handbook/a.mdx")
      "r" "/handbook/a" = some "r/contents/handbook/a/index.md" ∧
    some "r/contents/handbook/a/index.md" ≠
      some ("r/contents/handbook/a.mdx" : String) := by
  constructor
  · decide
  · decide

/-- C1 (amended): for every filesystem and reference, the Path Resolver
returns the first existing candidate in the order `<slug>.md`,
`<slug>/index.md`, `<slug>.mdx`, `<slug>/index.mdx` relative to the
content root, or `none` when none of the four exists. -/
theorem C1_resolver_first_existing_candidate (fsExists : String → Bool)
    (repo_path url_path : String) :
    resolve_path fsExists repo_path url_path =
      (candidatePaths repo_path url_path).find? fsExists := by
  simp only [resolve_path, candidatePaths, resolveLoop, find?_four,
    String.append_assoc,
    (show ("/index" ++ ".md" : String) = "/index.md" from rfl),
    (show ("/index" ++ ".mdx" : String) = "/index.mdx" from rfl)]

/-- C2 (counterexample): the Section Scanner does not merge the two
extension groups into one path-sorted list: with files `s/b.md` and
`s/a.mdx`, the returned order is `[s/b.md, s/a.mdx]` although
`s/a.mdx` is the lexicographically smaller path. -/
theorem C2_counterexample :
    (get_section_files ["s/b.md", "s/a.mdx"] (fun _ => "")).map Prod.snd =
      ["s/b.md", "s/a.mdx"] ∧
    ¬ strLeP "s/b.md" "s/a.mdx" := by
  constructor
  · decide
  · decide

/-- C2 (amended): the Section Scanner returns the `.md` files sorted by
full path string, followed by the `.mdx` files sorted by full path
string (each group with snippet paths removed); each group is sorted
within itself, but the two groups are not merged. -/
theorem C2_section_files_sorted_by_extension_group (listing : List String)
    (titleOf : String → String) :
    (get_section_files listing titleOf).map Prod.snd =
      ((pySorted (listing.filter (fun p => pyEndsWith p ".md"))).filter
        (fun p => !(containsSub "/_snippets/" p))) ++
      ((pySorted (listing.filter (fun p => pyEndsWith p ".mdx"))).filter
        (fun p => !(containsSub "/_snippets/" p))) ∧
    (((pySorted (listing.filter (fun p => pyEndsWith p ".md"))).filter
        (fun p => !(containsSub "/_snippets/" p))).Pairwise strLeP) ∧
    (((pySorted (listing.filter (fun p => pyEndsWith p ".mdx"))).filter
        (fun p => !(containsSub "/_snippets/" p))).Pairwise strLeP) := by
  refine ⟨?_, ?_, ?_⟩
  · unfold get_section_files
    simp [List.map_map, Function.comp_def]
  · exact List.Pairwise.filter _ (List.sorted_insertionSort strLeP _)
  · exact List.Pairwise.filter _ (List.sorted_insertionSort strLeP _)

/-- C3: in one build, no file identity emitted as a Part I chapter via
the manifest ever also appears in any Section's chapter list: the
section loop filters against `included_files`, which contains every
manifest-resolved path and only grows. -/
theorem C3_manifest_section_disjoint (navLinks : List String)
    (resolve : String → Option String) (sections : List (List String))
    {sec : List (String × String)} {ch : String × String}
    (hsec : sec ∈ (build_model navLinks resolve sections).2)
    (hch : ch ∈ sec) :
    ch.2 ∉ ((build_model navLinks resolve sections).1.map Prod.snd) := by
  rw [show (build_model navLinks resolve sections).1 =
    part1Chapters navLinks resolve from rfl, part1_paths_eq_included]
  exact sectionChapters_not_included sections 2 _ hsec hch

/-- C3 (witness): a concrete build in which the manifest resolves
`/handbook/a` to `f1`; the section containing `f1` and `f2` emits only
`f2`, whose identity is not among the Part I paths. -/
theorem C3_witness :
    (("s2_01", "f2") : String × String).2 ∉
      ((build_model ["/handbook/a"]
        (fun l => if l = "/handbook/a" then some "f1" else none)
        [["f1", "f2"]]).1.map Prod.snd) :=
  @C3_manifest_section_disjoint ["/handbook/a"]
    (fun l => if l = "/handbook/a" then some "f1" else none)
    [["f1", "f2"]] [("s2_01", "f2")] ("s2_01", "f2")
    (by decide) (by decide)

/-- C4: the Frontmatter Parser returns an empty record and the whole
input unchanged as body whenever the input does not begin with the
`---` delimiter, or the delimiter split yields fewer than 3 segments, or
the YAML load of the delimited block fails; the embedding is total, so
no error is ever raised. -/
theorem C4_frontmatter_failure_is_identity
    (yamlLoad : String → Option FrontmatterRecord) (content : String) :
    (pyStartsWith content "---" = false →
      parse_frontmatter yamlLoad content = ([], content)) ∧
    ((pySplit content "---" 2).length < 3 →
      parse_frontmatter yamlLoad content = ([], content)) ∧
    (∀ p0 p1 p2 rest, pySplit content "---" 2 = p0 :: p1 :: p2 :: rest →
      yamlLoad p1 = none → parse_frontmatter yamlLoad content = ([], content)) := by
  refine ⟨?_, ?_, ?_⟩
  · intro h
    simp [parse_frontmatter, h]
  · intro hlen
    unfold parse_frontmatter
    by_cases hs : pyStartsWith content "---"
    · rw [if_pos hs]
      cases hsp : pySplit content "---" 2 with
      | nil => rfl
      | cons p0 t0 =>
          cases t0 with
          | nil => rfl
          | cons p1 t1 =>
              cases t1 with
              | nil => rfl
              | cons p2 t2 =>
                  rw [hsp] at hlen
                  simp [List.length_cons] at hlen
                  omega
    · rw [if_neg hs]
  · intro p0 p1 p2 rest hsp hy
    unfold parse_frontmatter
    by_cases hs : pyStartsWith content "---"
    · rw [if_pos hs, hsp]
      simp [hy]
    · rw [if_neg hs]

/-- C4 (witness): a YAML failure on a well-delimited block, and an input
that does not begin with the delimiter, both collapse to an empty record
with the original text as body. -/
theorem C4_witness :
    parse_frontmatter (fun _ => none) "---a---b" = ([], "---a---b") ∧
    parse_frontmatter (fun _ => some [("title", "T")]) "plain" = ([], "plain") := by
  constructor
  · exact (C4_frontmatter_failure_is_identity (fun _ => none) "---a---b").2.2
      "" "a" "b" [] (by decide) rfl
  · exact (C4_frontmatter_failure_is_identity
      (fun _ => some [("title", "T")]) "plain").1 (by decide)

/-- C5: when the parsed frontmatter record has a `title` field, the
Chapter's title and the text of the prefixed `<h1>` heading are that
frontmatter title; the caller-supplied fallback title is used only when
the record has no `title` field. -/
theorem C5_frontmatter_title_priority
    (yamlLoad : String → Option FrontmatterRecord) (render : String → String)
    (raw fallback file_id : String) :
    (∀ t, (parse_frontmatter yamlLoad raw).1.lookup "title" = some t →
      (create_chapter yamlLoad render raw fallback file_id).title = t ∧
      (create_chapter yamlLoad render raw fallback file_id).content =
        "<h1>" ++ t ++ "</h1>\n" ++
          render (clean_mdx (parse_frontmatter yamlLoad raw).2)) ∧
    ((parse_frontmatter yamlLoad raw).1.lookup "title" = none →
      (create_chapter yamlLoad render raw fallback file_id).title = fallback) := by
  constructor
  · intro t ht
    unfold create_chapter
    simp [ht]
  · intro ht
    unfold create_chapter
    simp [ht]

/-- C5 (witness): frontmatter `title: Our Story` wins over the fallback
title `Story`. -/
theorem C5_witness :
    (create_chapter (fun _ => some [("title", "Our Story")]) (fun h => h)
      "---\ntitle: Our Story\n---\nbody" "Story" "ch_01").title = "Our Story" ∧
    ("Our Story" : String) ≠ "Story" := by
  constructor
  · exact ((C5_frontmatter_title_priority (fun _ => some [("title", "Our Story")])
      (fun h => h) "---\ntitle: Our Story\n---\nbody" "Story" "ch_01").1
      "Our Story" (by decide)).1
  · decide

/-- C6 (counterexample): the sanitizer is not the spec's seven-rule
pipeline with exports removed in the first step: on `<B/>export foo`
the code empties the text (the tag removal uncovers an export line that
the late export pass then deletes), while the spec-stated order keeps
`export foo`. -/
theorem C6_counterexample :
    clean_mdx "<B/>export foo" = "" ∧
    sanitizer_spec_stated "<B/>export foo" = "export foo" ∧
    ("" : String) ≠ "export foo" := by
  refine ⟨by decide, by decide, by decide⟩

/-- C6 (amended): the sanitizer output equals the rule pipeline applied
in the code's order: whole-line module-import removal first, then
attribute-bearing self-closing tags, paired tags keeping inner content,
bare self-closing tags, remaining tags, then whole-line module-export
removal, then the two link rewrites, then blank-line collapsing. -/
theorem C6_sanitizer_pipeline_order (content : String) :
    clean_mdx content = sanitizer_spec_amended content := rfl

/-- C7 (counterexample): a run of 4 newline characters (3 blank lines)
is rewritten to 3 newlines (2 blank lines): the output is neither the
input unchanged (as the claim's threshold of 4 blank lines implies) nor
2 newline characters. -/
theorem C7_counterexample :
    clean_mdx "\n\n\n\n" = "\n\n\n" ∧
    ("\n\n\n" : String) ≠ "\n\n\n\n" ∧ ("\n\n\n" : String) ≠ "\n\n" := by
  refine ⟨by decide, by decide, by decide⟩

/-- C7 (amended): the sanitizer's blank-line rule replaces every maximal
run of 4 or more consecutive newline characters (3 or more blank lines)
with exactly 3 newlines (2 blank lines) and leaves shorter runs
unchanged — `collapseSpec` states exactly that transformation. -/
theorem C7_blank_collapse (s : String) :
    collapseBlankLines s = String.mk (collapseSpec s.data) :=
  collapseBlankLines_eq_collapseSpec s

/-- C8 (counterexample): text free of component-tag syntax is not left
unchanged up to blank-line collapsing: `import x` contains no tag (all
four tag rules are the identity on it) and no blank lines, yet the
sanitizer erases it. -/
theorem C8_counterexample :
    removeSelfClosingAttr "import x" = "import x" ∧
    removePairedTags "import x" = "import x" ∧
    removeSelfClosingSimple "import x" = "import x" ∧
    removeRemainingTags "import x" = "import x" ∧
    clean_mdx "import x" = "" ∧
    collapseBlankLines "import x" = "import x" ∧
    ("" : String) ≠ "import x" := by
  refine ⟨by decide, by decide, by decide, by decide, by decide, by decide, by decide⟩

/-- C8 (amended): on text on which every import/export, component-tag
and internal-link rule is the identity (text free of those constructs),
the sanitizer output is exactly the blank-line collapse of the input. -/
theorem C8_sanitizer_noop_on_clean_text (s : String)
    (h1 : removeImports s = s) (h2 : removeSelfClosingAttr s = s)
    (h3 : removePairedTags s = s) (h4 : removeSelfClosingSimple s = s)
    (h5 : removeRemainingTags s = s) (h6 : removeExports s = s)
    (h7 : rewriteHandbookLinks s = s) (h8 : rewriteInternalLinks s = s) :
    clean_mdx s = collapseBlankLines s := by
  unfold clean_mdx
  rw [h1, h2, h3, h4, h5, h6, h7, h8]

/-- C8 (witness): concrete tag-free, import-free, link-free text:
the sanitizer only collapses the 5-newline run. -/
theorem C8_witness :
    clean_mdx "hello\n\n\n\n\nworld" = collapseBlankLines "hello\n\n\n\n\nworld" :=
  C8_sanitizer_noop_on_clean_text "hello\n\n\n\n\nworld"
    (by decide) (by decide) (by decide) (by decide)
    (by decide) (by decide) (by decide) (by decide)

/-- C9: within one build, every chapter identifier (`ch_<n>` for
manifest chapters, `s<part>_<n>` for section chapters, used as the
chapter file name) is distinct from every other chapter identifier,
including when some manifest references are skipped as unresolved. -/
theorem C9_chapter_ids_nodup (navLinks : List String)
    (resolve : String → Option String) (sections : List (List String)) :
    (((build_model navLinks resolve sections).1.map Prod.fst) ++
      (((build_model navLinks resolve sections).2.flatten).map Prod.fst)).Nodup := by
  rw [List.nodup_append]
  refine ⟨part1_ids_nodup navLinks resolve,
    sectionChapters_ids_nodup sections 2 _, ?_⟩
  intro x hx hx'
  obtain ⟨i, rfl⟩ := part1_ids_shape hx
  obtain ⟨q, j, _, hid⟩ := sectionChapters_flatten_id sections 2 _ hx'
  exact chId_ne_sId (i + 1) q (j + 1) hid

/-- C10: the Path Resolver derives the slug by deleting every occurrence
of `/handbook/` anywhere in the reference (Python `str.replace`), not by
stripping one leading prefix: on `/handbook/a/handbook/b` the slug is
`ab`, the probed candidates are the `ab` ones, and a file at the
strip-once location `a/handbook/b.md` is not found. -/
theorem C10_slug_deletes_every_occurrence :
    pyReplace "/handbook/a/handbook/b" "/handbook/" "" = "ab" ∧
    ("ab" : String) ≠ "a/handbook/b" ∧
    candidatePaths "r" "/handbook/a/handbook/b" =
      ["r/contents/handbook/ab.md", "r/contents/handbook/ab/index.md",
       "r/contents/handbook/ab.mdx", "r/contents/handbook/ab/index.mdx"] ∧
    resolve_path (fun p => p = "r/contents/handbook/a/handbook/b.md") "r"
      "/handbook/a/handbook/b" = none := by
  refine ⟨by decide, by decide, by decide, by decide⟩

end Handbook
